import Mathlib

/-!
Verification of the hibp (Pwned Passwords) client library.

The Go source is shallowly embedded: response bodies are `List Char`
(the API is ASCII text), suffixes are `List Char`, machine integers
are `Nat`.  The parsing/lookup core (`pwnedResultBuffer.Parse` /
`pwnedResultBuffer.Lookup`), the hashing/URL construction of `Check`,
and the cache/transport control flow of `Check` / `doRequest` are
modelled; collaborators (HTTP transport, cache) are parameters.
-/

namespace Hibp

/-- Character class `[0-9A-F]` of the line pattern `pwnedLinePattern`. -/
def isHexUpper (c : Char) : Bool :=
  ('0' ≤ c && c ≤ '9') || ('A' ≤ c && c ≤ 'F')

/-- Character class `[0-9]` of the line pattern. -/
def isDigitChar (c : Char) : Bool :=
  '0' ≤ c && c ≤ '9'

/-- Go regexp `\s`, which is the class `[\t\n\f\r ]`. -/
def isSpaceGo (c : Char) : Bool :=
  c == '\t' || c == '\n' || c == Char.ofNat 12 || c == '\r' || c == ' '

/-- `bytes.Compare`: lexicographic three-way comparison of byte slices
(the bytes here are ASCII characters, whose order equals byte order). -/
def cmpBytes : List Char → List Char → Ordering
  | [], [] => Ordering.eq
  | [], _ :: _ => Ordering.lt
  | _ :: _, [] => Ordering.gt
  | a :: as, b :: bs =>
    if a < b then Ordering.lt
    else if b < a then Ordering.gt
    else cmpBytes as bs

/-- `bytes.Equal`. -/
def eqBytes (a b : List Char) : Bool := a == b

/-- Strict lexicographic order induced by `cmpBytes` (`bytes.Compare < 0`). -/
def ltB (a b : List Char) : Prop := cmpBytes a b = Ordering.lt

instance (a b : List Char) : Decidable (ltB a b) := by
  unfold ltB; infer_instance

/-- `pwnedLinePattern.FindSubmatch` on one line: the anchored regular
expression `^([0-9A-F]{35}):([0-9]+)\s*$`, returning the (suffix, count)
capture groups on a match. -/
def matchLine (line : List Char) : Option (List Char × List Char) :=
  let s := line.take 35
  let rest := line.drop 35
  if s.length == 35 && s.all isHexUpper then
    match rest with
    | ':' :: rest2 =>
      let d := rest2.takeWhile isDigitChar
      let w := rest2.dropWhile isDigitChar
      if !d.isEmpty && w.all isSpaceGo then some (s, d) else none
    | _ => none
  else none

/-- The line splitting performed by the `ReadBytes('\n')` loop of
`Parse`: each `ReadBytes` call returns everything up to and including
the first newline, so each segment keeps its trailing newline; the
final segment (the remainder at `io.EOF`, possibly empty) has none. -/
def splitLines : List Char → List (List Char)
  | [] => [[]]
  | c :: rest =>
    if c == '\n' then ['\n'] :: splitLines rest
    else
      match splitLines rest with
      | [] => [[c]]
      | l :: ls => (c :: l) :: ls

/-- The occurrence filter of `Parse`:
`len(occurrence) > 1 || (len(occurrence) == 1 && occurrence[0] != '0')`. -/
def includeCount (d : List Char) : Bool :=
  decide (1 < d.length) || (decide (d.length = 1) && !(d.headD '0' == '0'))

/-- Parsed state of a `pwnedResultBuffer` (the raw `bytes.Buffer` is
drained and reset by `Parse`, so only the derived fields remain). -/
structure PwnedResultBuffer where
  Suffixes : List (List Char)
  SuffixesSorted : Bool
deriving DecidableEq

/-- The sortedness update of one `Parse` iteration:
`if SuffixesSorted && len(Suffixes) > 0 && Compare(last, suffix) >= 0
then false`. -/
def sortedUpd (st : List (List Char) × Bool) (s : List Char) : Bool :=
  match st.1.getLast? with
  | some last =>
    if st.2 && !(cmpBytes last s == Ordering.lt) then false else st.2
  | none => st.2

/-- One iteration of the `Parse` loop on the state
`(buf.Suffixes, buf.SuffixesSorted)`. -/
def parseStep (st : List (List Char) × Bool) (line : List Char) :
    List (List Char) × Bool :=
  match matchLine line with
  | none => st
  | some (s, d) =>
    if includeCount d then (st.1 ++ [s], sortedUpd st s)
    else (st.1, sortedUpd st s)

/-- `pwnedResultBuffer.Parse` on a raw response body: split into lines,
fold the loop body over them starting from empty suffixes and
`SuffixesSorted = true`. -/
def Parse (body : List Char) : PwnedResultBuffer :=
  let st := (splitLines body).foldl parseStep ([], true)
  ⟨st.1, st.2⟩

/-- The binary-search loop of `sort.Search` from the Go standard library
(external to this repository): fuel-indexed version of
`for i < j { h := (i+j)/2; if !f(h) { i = h+1 } else { j = h } }`.
The fuel never runs out when `fuel ≥ j - i`. -/
def sortSearchGo (f : Nat → Bool) : Nat → Nat → Nat → Nat
  | 0, i, _ => i
  | fuel + 1, i, j =>
    if i < j then
      let m := (i + j) / 2
      if f m then sortSearchGo f fuel i m else sortSearchGo f fuel (m + 1) j
    else i

/-- `sort.Search(n, f)`: smallest `i` in `[0, n]` with `f i = true`,
assuming `f` is monotone on `[0, n)`. -/
def sortSearch (n : Nat) (f : Nat → Bool) : Nat :=
  sortSearchGo f n 0 n

/-- `pwnedResultBuffer.Lookup`: linear scan when the suffixes were not
detected as sorted, binary search otherwise. -/
def Lookup (buf : PwnedResultBuffer) (sfx : List Char) : Bool :=
  if !buf.SuffixesSorted then
    buf.Suffixes.any (fun s => eqBytes s sfx)
  else
    let n := buf.Suffixes.length
    let idx := sortSearch n
      (fun i => !(cmpBytes (buf.Suffixes.getD i []) sfx == Ordering.lt))
    if idx < n then eqBytes sfx (buf.Suffixes.getD idx []) else false

/-- A well-formed response line: 35-character uppercase-hex suffix and a
non-empty decimal occurrence count. -/
structure Entry where
  suffix : List Char
  count : List Char
deriving DecidableEq

/-- Well-formedness of an entry per the wire format. -/
def Entry.wf (e : Entry) : Prop :=
  e.suffix.length = 35 ∧ e.suffix.all isHexUpper = true ∧
    e.count ≠ [] ∧ e.count.all isDigitChar = true

instance (e : Entry) : Decidable e.wf := by
  unfold Entry.wf; infer_instance

/-- Render one entry as the line `SUFFIX:COUNT\n`. -/
def renderEntry (e : Entry) : List Char :=
  e.suffix ++ ':' :: (e.count ++ ['\n'])

/-- Render a whole response body from its entries. -/
def renderBody (es : List Entry) : List Char :=
  (es.map renderEntry).flatten

/-- Numeric value of a decimal digit string. -/
def countVal (d : List Char) : Nat :=
  d.foldl (fun a c => a * 10 + (c.toNat - 48)) 0

/-! ### Hashing and URL construction (`Check`, lines 229-232)

`crypto/sha1` and `encoding/hex` are Go standard-library collaborators;
what the claims concern is how `Check` uses the digest: hex-encode,
uppercase, split at index 5, build the URL from the first 5 characters
only.  The digest is therefore a parameter (a 20-byte list). -/

/-- `encoding/hex` digit table `"0123456789abcdef"`. -/
def hexDigitLower (n : Nat) : Char :=
  Char.ofNat (if n < 10 then 48 + n else 87 + n)

/-- `hex.EncodeToString`: two lowercase hex digits per byte. -/
def hexEncode (bs : List Nat) : List Char :=
  bs.flatMap (fun b => [hexDigitLower (b / 16), hexDigitLower (b % 16)])

/-- `strings.ToUpper` on an ASCII character. -/
def goToUpper (c : Char) : Char :=
  if 'a' ≤ c && c ≤ 'z' then Char.ofNat (c.toNat - 32) else c

/-- `hexsum` of `Check`: `strings.ToUpper(hex.EncodeToString(sum))`. -/
def hexSum (sum : List Nat) : List Char :=
  (hexEncode sum).map goToUpper

/-- `PwnedPasswordsURL`: base URL concatenated with the prefix. -/
def PwnedPasswordsURL (pfx : List Char) : List Char :=
  "https://api.pwnedpasswords.com/range/".toList ++ pfx

/-- The request URL built by `Check`/`doRequest` from a digest:
`PwnedPasswordsURL(string(hexsum[:5]))`. -/
def checkRequestURL (sum : List Nat) : List Char :=
  PwnedPasswordsURL ((hexSum sum).take 5)

/-- The local suffix kept by `Check`: `hexsum[5:]`. -/
def checkLocalSuffix (sum : List Nat) : List Char :=
  (hexSum sum).drop 5

/-! ### The `Check` / `doRequest` control flow

Collaborators are modelled by their observable results: the transport
returns either an error or a response, the cache returns fixed results
for `Contains` and `Add`.  Every collaborator invocation is recorded in
an effect list so that claims about "no network activity" and "Add is
invoked" are statements about the effects. -/

/-- An HTTP response as far as the client inspects it: status code and
raw body. -/
structure HttpResponse where
  StatusCode : Nat
  Body : List Char
deriving DecidableEq

/-- An opaque Go `error` value: either the distinguished
`*ErrorUnexpectedResponse` (carrying the response, per errors.go) or
some other error (transport or cache), identified by a code. -/
inductive GoError where
  | unexpected (res : HttpResponse)
  | other (code : Nat)
deriving DecidableEq

/-- Result of `client.Do`: transport error or response. -/
inductive TransportResult where
  | failure (e : GoError)
  | success (res : HttpResponse)
deriving DecidableEq

/-- Observable behaviour of a configured `PwnedCache`. -/
structure CacheModel where
  containsResult : Bool × Option GoError
  addResult : Option GoError
deriving DecidableEq

/-- A `PwnedClient` together with its collaborators' behaviour. -/
structure ClientModel where
  Cache : Option CacheModel
  transport : TransportResult
deriving DecidableEq

/-- Collaborator invocations performed during a check. -/
inductive Effect where
  | transportCall (pfx : List Char)
  | cacheAdd (pfx : List Char) (suffixes : List (List Char))
deriving DecidableEq

/-- The response as returned by `doRequest`: the raw response, plus the
parsed buffer installed as `res.Body` on the 200 path. -/
structure RespState where
  raw : HttpResponse
  parsedBody : Option PwnedResultBuffer
deriving DecidableEq

/-- `PwnedClient.doRequest` (lines 168-216): one transport call; on
status 200 the body is parsed and, when a cache is configured and at
least one suffix was parsed, `Cache.Add` is invoked, its error being
returned; otherwise the response is passed through. -/
def doRequest (c : ClientModel) (pfx : List Char) :
    (Option RespState × Option GoError) × List Effect :=
  match c.transport with
  | TransportResult.failure e => ((none, some e), [Effect.transportCall pfx])
  | TransportResult.success res =>
    if res.StatusCode = 200 then
      let buf := Parse res.Body
      match c.Cache with
      | some cm =>
        if buf.Suffixes = [] then
          ((some ⟨res, some buf⟩, none), [Effect.transportCall pfx])
        else
          match cm.addResult with
          | some e =>
            ((some ⟨res, none⟩, some e),
              [Effect.transportCall pfx, Effect.cacheAdd pfx buf.Suffixes])
          | none =>
            ((some ⟨res, some buf⟩, none),
              [Effect.transportCall pfx, Effect.cacheAdd pfx buf.Suffixes])
      | none => ((some ⟨res, some buf⟩, none), [Effect.transportCall pfx])
    else ((some ⟨res, none⟩, none), [Effect.transportCall pfx])

/-- `Check` after a cache miss (lines 245-261): obtain the coalesced
request's result, propagate errors, surface `ErrorUnexpectedResponse`
on a non-200 status, otherwise look the suffix up in the parsed body. -/
def checkNetwork (c : ClientModel) (pfx sfx : List Char) :
    (Bool × Option GoError) × List Effect :=
  match doRequest c pfx with
  | ((_, some e), effs) => ((false, some e), effs)
  | ((some rs, none), effs) =>
    if rs.raw.StatusCode ≠ 200 then
      ((false, some (GoError.unexpected rs.raw)), effs)
    else
      match rs.parsedBody with
      | some buf => ((Lookup buf sfx, none), effs)
      | none => ((false, none), effs)
  | ((none, none), effs) => ((false, none), effs)

/-- `PwnedClient.Check` (lines 224-261), after the hash split: consult
the cache when configured (propagating its `(bool, error)` pair on
error, answering on a hit), otherwise go to the network. -/
def Check (c : ClientModel) (pfx sfx : List Char) :
    (Bool × Option GoError) × List Effect :=
  match c.Cache with
  | some cm =>
    match cm.containsResult.2 with
    | some e => ((cm.containsResult.1, some e), [])
    | none =>
      if cm.containsResult.1 then ((true, none), [])
      else checkNetwork c pfx sfx
  | none => checkNetwork c pfx sfx

/-! ### Concrete data used in counterexamples and witnesses -/

/-- A 35-character suffix of '1's. -/
def sfx1 : List Char := "11111111111111111111111111111111111".toList

/-- A 35-character suffix of '2's. -/
def sfx2 : List Char := "22222222222222222222222222222222222".toList

/-- A 35-character suffix of '3's. -/
def sfx3 : List Char := "33333333333333333333333333333333333".toList

/-- A body whose only line carries the multi-character count "00",
numerically zero. -/
def bodyC3 : List Char := sfx1 ++ (":00\n".toList)

/-- A body with an out-of-order zero-count (padding) middle line whose
derived suffix collection is nonetheless strictly ascending. -/
def bodyC4 : List Char :=
  sfx2 ++ (":1\n".toList) ++ sfx1 ++ (":0\n".toList) ++
    sfx3 ++ (":1\n".toList)

/-- Ascending well-formed entries, including a zero-count padding one. -/
def esAsc : List Entry := [⟨sfx1, ['1']⟩, ⟨sfx2, ['0']⟩, ⟨sfx3, ['2']⟩]

/-- Two ascending entries with non-zero counts. -/
def esC1 : List Entry := [⟨sfx1, ['1']⟩, ⟨sfx2, ['2']⟩]

/-- One entry carrying the single-character count "0". -/
def esC3 : List Entry := [⟨sfx2, ['0']⟩]

/-! ### Order facts about `cmpBytes` -/

theorem cmpBytes_self (a : List Char) : cmpBytes a a = Ordering.eq := by
  induction a with
  | nil => rfl
  | cons x xs ih => simp [cmpBytes, ih]

theorem cmpBytes_eq_iff {a b : List Char} :
    cmpBytes a b = Ordering.eq ↔ a = b := by
  constructor
  · intro h
    induction a generalizing b with
    | nil => cases b with
      | nil => rfl
      | cons y ys => simp [cmpBytes] at h
    | cons x xs ih =>
      cases b with
      | nil => simp [cmpBytes] at h
      | cons y ys =>
        simp only [cmpBytes] at h
        split_ifs at h with h1 h2
        have hxy : x = y := le_antisymm (not_lt.mp h2) (not_lt.mp h1)
        rw [hxy, ih h]
  · rintro rfl; exact cmpBytes_self a

theorem cmpBytes_lt_trans {a b c : List Char}
    (h1 : cmpBytes a b = Ordering.lt) (h2 : cmpBytes b c = Ordering.lt) :
    cmpBytes a c = Ordering.lt := by
  induction a generalizing b c with
  | nil =>
    cases b with
    | nil => simp [cmpBytes] at h1
    | cons b1 bs =>
      cases c with
      | nil => simp [cmpBytes] at h2
      | cons c1 cs => simp [cmpBytes]
  | cons a1 as ih =>
    cases b with
    | nil => simp [cmpBytes] at h1
    | cons b1 bs =>
      cases c with
      | nil => simp [cmpBytes] at h2
      | cons c1 cs =>
        simp only [cmpBytes] at h1 h2 ⊢
        split_ifs at h1 with hab1 hab2
        · split_ifs at h2 with hbc1 hbc2
          · rw [if_pos (lt_trans hab1 hbc1)]
          · have hbc : b1 = c1 := le_antisymm (not_lt.mp hbc2) (not_lt.mp hbc1)
            rw [if_pos (hbc ▸ hab1)]
        · have hab : a1 = b1 := le_antisymm (not_lt.mp hab2) (not_lt.mp hab1)
          split_ifs at h2 with hbc1 hbc2
          · rw [if_pos (hab ▸ hbc1)]
          · have hbc : b1 = c1 := le_antisymm (not_lt.mp hbc2) (not_lt.mp hbc1)
            rw [hab, hbc, if_neg (lt_irrefl c1), if_neg (lt_irrefl c1)]
            exact ih h1 h2

/-- `Chain'` lifts to `Pairwise` for the transitive order `ltB`. -/
theorem chain'_ltB_pairwise : ∀ {l : List (List Char)},
    List.Chain' ltB l → List.Pairwise ltB l
  | [], _ => List.Pairwise.nil
  | [a], _ => by simp
  | a :: b :: t, h => by
    rw [List.chain'_cons] at h
    have hp := chain'_ltB_pairwise h.2
    refine List.pairwise_cons.mpr ⟨?_, hp⟩
    intro x hx
    rcases List.mem_cons.mp hx with rfl | hx
    · exact h.1
    · exact cmpBytes_lt_trans h.1 (List.rel_of_pairwise_cons hp hx)

theorem ltB_irrefl (a : List Char) : ¬ ltB a a := by
  intro h
  rw [ltB, cmpBytes_self] at h
  exact absurd h (by decide)

theorem eqBytes_iff {a b : List Char} : eqBytes a b = true ↔ a = b := by
  simp [eqBytes]

/-! ### Characters of the wire format -/

theorem isHexUpper_ne_newline {c : Char} (h : isHexUpper c = true) :
    c ≠ '\n' := by
  rintro rfl
  exact absurd h (by decide)

theorem isDigitChar_ne_newline {c : Char} (h : isDigitChar c = true) :
    c ≠ '\n' := by
  rintro rfl
  exact absurd h (by decide)

/-! ### `takeWhile` / `dropWhile` over appends whose first part satisfies
the predicate -/

theorem takeWhile_append_all {p : Char → Bool} {l1 l2 : List Char}
    (h : ∀ x ∈ l1, p x = true) :
    (l1 ++ l2).takeWhile p = l1 ++ l2.takeWhile p := by
  rw [List.takeWhile_append, List.takeWhile_eq_self_iff.mpr h, if_pos rfl]

theorem dropWhile_append_all {p : Char → Bool} {l1 l2 : List Char}
    (h : ∀ x ∈ l1, p x = true) :
    (l1 ++ l2).dropWhile p = l2.dropWhile p := by
  rw [List.dropWhile_append, List.dropWhile_eq_nil_iff.mpr h]
  simp

/-! ### Behaviour of `splitLines` -/

theorem splitLines_ne_nil (body : List Char) : splitLines body ≠ [] := by
  cases body with
  | nil => simp [splitLines]
  | cons c rest =>
    rw [splitLines]
    by_cases hc : (c == '\n') = true
    · rw [if_pos hc]; simp
    · rw [if_neg hc]
      cases splitLines rest <;> simp

theorem splitLines_no_newline (body : List Char) (h : ∀ c ∈ body, c ≠ '\n') :
    splitLines body = [body] := by
  induction body with
  | nil => rfl
  | cons c rest ih =>
    rw [splitLines, if_neg (by simpa using h c (by simp)),
      ih (fun x hx => h x (by simp [hx]))]

theorem splitLines_append (l rest : List Char) (h : ∀ c ∈ l, c ≠ '\n') :
    splitLines (l ++ '\n' :: rest) = (l ++ ['\n']) :: splitLines rest := by
  induction l with
  | nil => simp [splitLines]
  | cons c l' ih =>
    rw [List.cons_append, splitLines,
      if_neg (by simpa using h c (by simp)),
      ih (fun x hx => h x (by simp [hx]))]
    simp

/-! ### Matching rendered lines -/

theorem matchLine_renderEntry (e : Entry) (hwf : e.wf) :
    matchLine (renderEntry e) = some (e.suffix, e.count) := by
  obtain ⟨h35, hhex, hne, hdig⟩ := hwf
  have hdig' : ∀ x ∈ e.count, isDigitChar x = true := List.all_eq_true.mp hdig
  unfold matchLine renderEntry
  rw [List.take_left' h35, List.drop_left' h35]
  simp only [h35, hhex]
  rw [takeWhile_append_all hdig', dropWhile_append_all hdig']
  simp only [List.takeWhile_cons, List.dropWhile_cons]
  norm_num [isDigitChar, isSpaceGo]
  exact ⟨fun hc => absurd hc hne, fun hc => absurd hc (by decide)⟩

theorem matchLine_nil : matchLine [] = none := by decide

/-- `renderBody` splits back into its rendered lines, plus the empty
final segment read at `io.EOF`. -/
theorem splitLines_renderBody (es : List Entry) (hwf : ∀ e ∈ es, e.wf) :
    splitLines (renderBody es) = es.map renderEntry ++ [[]] := by
  induction es with
  | nil =>
    rw [renderBody]
    simp only [List.map_nil, List.flatten_nil]
    rw [splitLines_no_newline [] (by simp)]
    simp
  | cons e es ih =>
    have hew := hwf e (by simp)
    obtain ⟨h35, hhex, hne, hdig⟩ := hew
    have hbody : renderBody (e :: es) =
        (e.suffix ++ ':' :: e.count) ++ '\n' :: renderBody es := by
      rw [renderBody, List.map_cons, List.flatten_cons, renderEntry]
      simp [renderBody]
    rw [hbody, splitLines_append]
    · have : (e.suffix ++ ':' :: e.count) ++ ['\n'] = renderEntry e := by
        rw [renderEntry]; simp
      rw [this, ih (fun x hx => hwf x (by simp [hx]))]
      simp
    · intro c hc
      rcases List.mem_append.mp hc with hc | hc
      · exact isHexUpper_ne_newline (List.all_eq_true.mp hhex c hc)
      · rcases List.mem_cons.mp hc with rfl | hc
        · decide
        · exact isDigitChar_ne_newline (List.all_eq_true.mp hdig c hc)

/-! ### The `Parse` fold: suffix membership and the sortedness flag -/

theorem parseStep_of_none {st : List (List Char) × Bool} {line : List Char}
    (hm : matchLine line = none) : parseStep st line = st := by
  unfold parseStep
  rw [hm]

theorem parseStep_of_some {st : List (List Char) × Bool} {line s d : List Char}
    (hm : matchLine line = some (s, d)) :
    parseStep st line =
      if includeCount d then (st.1 ++ [s], sortedUpd st s)
      else (st.1, sortedUpd st s) := by
  unfold parseStep
  rw [hm]

theorem sortedUpd_eq_of_none {st : List (List Char) × Bool} {s : List Char}
    (hlast : st.1.getLast? = none) : sortedUpd st s = st.2 := by
  unfold sortedUpd
  rw [hlast]

theorem sortedUpd_eq_of_some {st : List (List Char) × Bool}
    {s last : List Char} (hlast : st.1.getLast? = some last) :
    sortedUpd st s =
      if st.2 && !(cmpBytes last s == Ordering.lt) then false else st.2 := by
  unfold sortedUpd
  rw [hlast]

theorem sortedUpd_true {st : List (List Char) × Bool} {s : List Char}
    (h : sortedUpd st s = true) : st.2 = true := by
  cases hlast : st.1.getLast? with
  | none => rw [sortedUpd_eq_of_none hlast] at h; exact h
  | some last =>
    rw [sortedUpd_eq_of_some hlast] at h
    by_cases hc : (st.2 && !(cmpBytes last s == Ordering.lt)) = true
    · rw [if_pos hc] at h; exact absurd h (by decide)
    · rw [if_neg hc] at h; exact h

theorem sortedUpd_lt {st : List (List Char) × Bool} {s last : List Char}
    (h : sortedUpd st s = true) (hlast : st.1.getLast? = some last) :
    ltB last s := by
  have hst := sortedUpd_true h
  rw [sortedUpd_eq_of_some hlast, hst] at h
  by_cases hc : cmpBytes last s = Ordering.lt
  · exact hc
  · exfalso
    have hf : (cmpBytes last s == Ordering.lt) = false := by
      rcases hcmp : cmpBytes last s
      · exact absurd hcmp hc
      · rfl
      · rfl
    rw [hf] at h
    simp at h

theorem sortedUpd_of_lt {st : List (List Char) × Bool} {s : List Char}
    (hst : st.2 = true)
    (h : ∀ last, st.1.getLast? = some last → ltB last s) :
    sortedUpd st s = true := by
  cases hlast : st.1.getLast? with
  | none => rw [sortedUpd_eq_of_none hlast]; exact hst
  | some last =>
    have hlt := h last hlast
    rw [ltB] at hlt
    rw [sortedUpd_eq_of_some hlast, hst, hlt]
    decide

/-- One step of the fold preserves "a true flag means the accumulated
suffixes are strictly ascending". -/
theorem parseStep_sorted {st : List (List Char) × Bool} {line : List Char}
    (h : st.2 = true → List.Chain' ltB st.1) :
    (parseStep st line).2 = true → List.Chain' ltB (parseStep st line).1 := by
  intro hs
  cases hm : matchLine line with
  | none => rw [parseStep_of_none hm] at hs ⊢; exact h hs
  | some sd =>
    obtain ⟨s, d⟩ := sd
    rw [parseStep_of_some hm] at hs ⊢
    by_cases hinc : includeCount d = true
    · rw [if_pos hinc] at hs ⊢
      simp only at hs ⊢
      have hchain := h (sortedUpd_true hs)
      rw [List.chain'_append]
      refine ⟨hchain, List.chain'_singleton s, ?_⟩
      intro x hx y hy
      simp only [List.head?_cons, Option.mem_some_iff] at hy
      subst hy
      exact sortedUpd_lt hs hx
    · rw [if_neg hinc] at hs ⊢
      simp only at hs ⊢
      exact h (sortedUpd_true hs)

/-- The flag after a whole fold being true implies the suffix list is
strictly ascending. -/
theorem foldl_parseStep_sorted (lines : List (List Char)) :
    ∀ (st : List (List Char) × Bool), (st.2 = true → List.Chain' ltB st.1) →
      (lines.foldl parseStep st).2 = true →
      List.Chain' ltB (lines.foldl parseStep st).1 := by
  induction lines with
  | nil => intro st h hs; exact h hs
  | cons l ls ih =>
    intro st h
    rw [List.foldl_cons]
    exact ih _ (parseStep_sorted h)

/-- The suffix list accumulated by the fold, characterised: a suffix is
present iff it was in the initial state or some processed line matched
it with an occurrence count passing the filter. -/
theorem mem_foldl_parseStep (lines : List (List Char)) :
    ∀ (st : List (List Char) × Bool) (x : List Char),
      x ∈ (lines.foldl parseStep st).1 ↔
        x ∈ st.1 ∨ ∃ line ∈ lines, ∃ d,
          matchLine line = some (x, d) ∧ includeCount d = true := by
  induction lines with
  | nil => simp
  | cons l ls ih =>
    intro st x
    rw [List.foldl_cons, ih]
    have hstep : x ∈ (parseStep st l).1 ↔
        x ∈ st.1 ∨ ∃ d, matchLine l = some (x, d) ∧ includeCount d = true := by
      cases hm : matchLine l with
      | none => rw [parseStep_of_none hm]; simp [hm]
      | some sd =>
        obtain ⟨s, d⟩ := sd
        rw [parseStep_of_some hm]
        by_cases hinc : includeCount d = true
        · rw [if_pos hinc]
          simp only [List.mem_append, List.mem_singleton, hm,
            Option.some_inj, Prod.mk.injEq]
          constructor
          · rintro (hx | rfl)
            · exact Or.inl hx
            · exact Or.inr ⟨d, ⟨rfl, rfl⟩, hinc⟩
          · rintro (hx | ⟨d', ⟨rfl, rfl⟩, _⟩)
            · exact Or.inl hx
            · exact Or.inr rfl
        · rw [if_neg hinc]
          simp only [hm, Option.some_inj, Prod.mk.injEq]
          constructor
          · exact Or.inl
          · rintro (hx | ⟨d', ⟨rfl, rfl⟩, hinc'⟩)
            · exact hx
            · exact absurd hinc' hinc
    rw [hstep]
    simp only [List.mem_cons]
    constructor
    · rintro ((hx | ⟨d, hd, hinc⟩) | ⟨line, hl, d, hd, hinc⟩)
      · exact Or.inl hx
      · exact Or.inr ⟨l, Or.inl rfl, d, hd, hinc⟩
      · exact Or.inr ⟨line, Or.inr hl, d, hd, hinc⟩
    · rintro (hx | ⟨line, hl | hl, d, hd, hinc⟩)
      · exact Or.inl (Or.inl hx)
      · exact Or.inl (Or.inr ⟨d, hl ▸ hd, hinc⟩)
      · exact Or.inr ⟨line, hl, d, hd, hinc⟩

/-- If all suffixes of the remaining lines are strictly above everything
accumulated so far and pairwise ascending, the flag stays true. -/
theorem foldl_parseStep_flag_of_ascending (es : List Entry) :
    ∀ (st : List (List Char) × Bool), (∀ e ∈ es, e.wf) → st.2 = true →
      (∀ x ∈ st.1, ∀ e ∈ es, ltB x e.suffix) →
      List.Pairwise (fun a b : Entry => ltB a.suffix b.suffix) es →
      ((es.map renderEntry).foldl parseStep st).2 = true := by
  induction es with
  | nil => intro st _ hst _ _; exact hst
  | cons e es ih =>
    intro st hwf hst hup hpw
    rw [List.map_cons, List.foldl_cons,
      parseStep_of_some (matchLine_renderEntry e (hwf e (by simp)))]
    have hupd : sortedUpd st e.suffix = true := by
      refine sortedUpd_of_lt hst ?_
      intro last hlast
      have hmem : last ∈ st.1 := by
        rcases List.mem_getLast?_eq_getLast (Option.mem_def.mpr hlast) with
          ⟨hne, rfl⟩
        exact List.getLast_mem hne
      exact hup last hmem e (by simp)
    have hpw' := (List.pairwise_cons.mp hpw)
    by_cases hinc : includeCount e.count = true
    · rw [if_pos hinc]
      refine ih _ (fun x hx => hwf x (by simp [hx])) hupd ?_ hpw'.2
      intro x hx e' he'
      rcases List.mem_append.mp hx with hx | hx
      · exact hup x hx e' (by simp [he'])
      · rw [List.mem_singleton.mp hx]
        exact hpw'.1 e' he'
    · rw [if_neg hinc]
      refine ih _ (fun x hx => hwf x (by simp [hx])) hupd ?_ hpw'.2
      intro x hx e' he'
      exact hup x hx e' (by simp [he'])

/-! ### Correctness of `sort.Search` and `Lookup` -/

theorem sortSearchGo_spec (f : Nat → Bool) (n : Nat)
    (hmono : ∀ a b, a ≤ b → b < n → f a = true → f b = true) :
    ∀ (fuel i j : Nat), i ≤ j → j ≤ n → j - i ≤ fuel →
      i ≤ sortSearchGo f fuel i j ∧ sortSearchGo f fuel i j ≤ j ∧
      (∀ t, i ≤ t → t < sortSearchGo f fuel i j → f t = false) ∧
      (sortSearchGo f fuel i j < j → f (sortSearchGo f fuel i j) = true) := by
  intro fuel
  induction fuel with
  | zero =>
    intro i j hij hjn hfuel
    have : i = j := by omega
    subst this
    simp only [sortSearchGo]
    exact ⟨le_refl i, le_refl i, fun t h1 h2 => absurd h2 (by omega),
      fun h => absurd h (by omega)⟩
  | succ fuel ih =>
    intro i j hij hjn hfuel
    simp only [sortSearchGo]
    by_cases hlt : i < j
    · rw [if_pos hlt]
      set m := (i + j) / 2 with hm
      have hmi : i ≤ m := by omega
      have hmj : m < j := by omega
      by_cases hfm : f m = true
      · rw [if_pos hfm]
        obtain ⟨h1, h2, h3, h4⟩ := ih i m hmi (by omega) (by omega)
        refine ⟨h1, by omega, h3, ?_⟩
        intro hr
        by_cases hrm : sortSearchGo f fuel i m < m
        · exact h4 hrm
        · have : sortSearchGo f fuel i m = m := by omega
          rw [this]
          exact hfm
      · rw [if_neg hfm]
        obtain ⟨h1, h2, h3, h4⟩ := ih (m + 1) j (by omega) hjn (by omega)
        refine ⟨by omega, h2, ?_, h4⟩
        intro t ht1 ht2
        by_cases htm : t ≤ m
        · by_contra hft
          rw [Bool.not_eq_false] at hft
          exact hfm (hmono t m htm (by omega) hft)
        · exact h3 t (by omega) ht2
    · rw [if_neg hlt]
      have : i = j := by omega
      exact ⟨le_refl i, by omega, fun t h1 h2 => absurd h2 (by omega),
        fun h => absurd h (by omega)⟩

/-- Correctness of `Lookup` on both code paths: it answers exactly
membership in `Suffixes`, provided a true `SuffixesSorted` flag implies
the strict ascent of the suffixes (which `Parse` guarantees). -/
theorem Lookup_eq_true_iff (buf : PwnedResultBuffer)
    (hs : buf.SuffixesSorted = true → List.Chain' ltB buf.Suffixes)
    (sfx : List Char) :
    Lookup buf sfx = true ↔ sfx ∈ buf.Suffixes := by
  unfold Lookup
  cases hflag : buf.SuffixesSorted with
  | false =>
    simp only [Bool.not_false, if_pos]
    rw [List.any_eq_true]
    constructor
    · rintro ⟨s, hsm, hseq⟩
      rw [eqBytes_iff.mp hseq] at hsm
      exact hsm
    · intro hm
      exact ⟨sfx, hm, eqBytes_iff.mpr rfl⟩
  | true =>
    simp only [Bool.not_true, Bool.false_eq_true, if_false]
    have hpw : List.Pairwise ltB buf.Suffixes :=
      chain'_ltB_pairwise (hs hflag)
    have hpw' := List.pairwise_iff_getElem.mp hpw
    set f : Nat → Bool :=
      fun i => !(cmpBytes (buf.Suffixes.getD i []) sfx == Ordering.lt)
        with hf
    set n := buf.Suffixes.length with hn
    have hfc : ∀ a, f a = true ↔ ¬ cmpBytes (buf.Suffixes.getD a []) sfx =
        Ordering.lt := by
      intro a
      have hfa : f a = !(cmpBytes (buf.Suffixes.getD a []) sfx ==
          Ordering.lt) := rfl
      rw [hfa]
      rcases hcmp : cmpBytes (buf.Suffixes.getD a []) sfx <;> simp [hcmp] <;>
        decide
    have hmono : ∀ a b, a ≤ b → b < n → f a = true → f b = true := by
      intro a b hab hbn hfa
      rcases Nat.eq_or_lt_of_le hab with rfl | hab'
      · exact hfa
      · have han : a < n := lt_trans hab' hbn
        have hltab : ltB (buf.Suffixes.getD a []) (buf.Suffixes.getD b []) := by
          rw [List.getD_eq_getElem _ _ han, List.getD_eq_getElem _ _ hbn]
          exact hpw' a b han hbn hab'
        rw [hfc] at hfa ⊢
        intro hbl
        exact hfa (cmpBytes_lt_trans hltab hbl)
    obtain ⟨h0, hub, hbelow, hat⟩ :=
      sortSearchGo_spec f n hmono n 0 n (Nat.zero_le n) (le_refl n)
        (by omega)
    have hidx : sortSearch n f = sortSearchGo f n 0 n := rfl
    constructor
    · intro h
      by_cases hin : sortSearch n f < n
      · rw [if_pos hin] at h
        rw [eqBytes_iff.mp h, List.getD_eq_getElem _ _ hin]
        exact List.getElem_mem hin
      · rw [if_neg hin] at h
        exact absurd h (by decide)
    · intro hm
      obtain ⟨k, hk, hgk⟩ := List.mem_iff_getElem.mp hm
      have hfk : f k = true := by
        rw [hfc, List.getD_eq_getElem _ _ hk, hgk, cmpBytes_self]
        decide
      have hky : sortSearchGo f n 0 n ≤ k := by
        by_contra hkl
        rw [not_le] at hkl
        rw [hbelow k (Nat.zero_le k) hkl] at hfk
        exact absurd hfk (by decide)
      have hin : sortSearch n f < n := by
        rw [hidx]; omega
      have hfidx : f (sortSearchGo f n 0 n) = true := hat (by rw [← hidx]; exact hin)
      have hidxk : sortSearchGo f n 0 n = k := by
        rcases Nat.eq_or_lt_of_le hky with h | h
        · exact h
        · exfalso
          have hlt : ltB buf.Suffixes[sortSearchGo f n 0 n] buf.Suffixes[k] :=
            hpw' _ k (by omega) hk h
          rw [hgk] at hlt
          rw [hfc, List.getD_eq_getElem _ _ (by rw [← hidx]; exact hin)] at hfidx
          exact hfidx hlt
      rw [if_pos hin, hidx, hidxk, List.getD_eq_getElem _ _ hk, hgk]
      exact eqBytes_iff.mpr rfl

/-! ### `Parse` on rendered bodies -/

theorem Parse_fold (body : List Char) :
    Parse body = ⟨((splitLines body).foldl parseStep ([], true)).1,
      ((splitLines body).foldl parseStep ([], true)).2⟩ := rfl

/-- `Parse` guarantees that a true flag means strictly ascending
suffixes, for every raw body. -/
theorem Parse_sorted (body : List Char)
    (h : (Parse body).SuffixesSorted = true) :
    List.Chain' ltB (Parse body).Suffixes := by
  rw [Parse_fold] at h ⊢
  exact foldl_parseStep_sorted _ _ (fun _ => List.chain'_nil) h

/-- Membership in the parsed suffixes of a rendered well-formed body:
exactly the entries passing the occurrence filter. -/
theorem mem_Parse_renderBody (es : List Entry) (hwf : ∀ e ∈ es, e.wf)
    (x : List Char) :
    x ∈ (Parse (renderBody es)).Suffixes ↔
      ∃ e ∈ es, e.suffix = x ∧ includeCount e.count = true := by
  rw [Parse_fold]
  show x ∈ ((splitLines (renderBody es)).foldl parseStep ([], true)).1 ↔ _
  rw [splitLines_renderBody es hwf, List.foldl_append]
  simp only [List.foldl_cons, List.foldl_nil,
    parseStep_of_none matchLine_nil]
  rw [mem_foldl_parseStep]
  simp only [List.not_mem_nil, false_or]
  constructor
  · rintro ⟨line, hl, d, hd, hinc⟩
    obtain ⟨e, he, rfl⟩ := List.mem_map.mp hl
    rw [matchLine_renderEntry e (hwf e he), Option.some_inj,
      Prod.mk.injEq] at hd
    exact ⟨e, he, hd.1, by rw [hd.2]; exact hinc⟩
  · rintro ⟨e, he, rfl, hinc⟩
    exact ⟨renderEntry e, List.mem_map_of_mem _ he, e.count,
      matchLine_renderEntry e (hwf e he), hinc⟩

/-- A numerically non-zero digit string passes the occurrence filter. -/
theorem includeCount_of_countVal {d : List Char} (hne : d ≠ [])
    (hdig : d.all isDigitChar = true) (hcv : countVal d ≠ 0) :
    includeCount d = true := by
  match d with
  | [] => exact absurd rfl hne
  | [c] =>
    have hc : c ≠ '0' := by
      rintro rfl
      exact hcv rfl
    unfold includeCount
    simp [hc]
  | c1 :: c2 :: rest =>
    unfold includeCount
    simp [List.length_cons]

/-! ### Claim C1 -/

/-- C1: for every response body made of well-formed lines (35 uppercase
hex characters, a colon, a decimal count), after `Parse`, `Lookup`
returns true for every suffix present with a numerically non-zero
occurrence count, and false for every 35-byte suffix absent from the
body. -/
theorem c1_parse_lookup (es : List Entry) (hwf : ∀ e ∈ es, e.wf) :
    (∀ e ∈ es, countVal e.count ≠ 0 →
      Lookup (Parse (renderBody es)) e.suffix = true) ∧
    (∀ s : List Char, s.length = 35 → (∀ e ∈ es, e.suffix ≠ s) →
      Lookup (Parse (renderBody es)) s = false) := by
  have hlk := Lookup_eq_true_iff (Parse (renderBody es))
    (Parse_sorted (renderBody es))
  constructor
  · intro e he hcv
    rw [hlk, mem_Parse_renderBody es hwf]
    obtain ⟨_, _, hne, hdig⟩ := hwf e he
    exact ⟨e, he, rfl, includeCount_of_countVal hne hdig hcv⟩
  · intro s _ habs
    by_contra h
    rw [Bool.not_eq_false, hlk, mem_Parse_renderBody es hwf] at h
    obtain ⟨e, he, heq, _⟩ := h
    exact habs e he heq

theorem c1_parse_lookup_witness :
    Lookup (Parse (renderBody esC1)) sfx1 = true ∧
    Lookup (Parse (renderBody esC1)) sfx3 = false := by
  have h := c1_parse_lookup esC1 (by decide)
  exact ⟨h.1 ⟨sfx1, ['1']⟩ (by decide) (by decide),
    h.2 sfx3 (by decide) (by decide)⟩

/-! ### Claim C3 -/

/-- C3 is refuted as stated: the body `bodyC3` holds the suffix `sfx1`
only with the occurrence count "00", which is numerically zero, yet
`Parse` keeps the suffix (the filter tests the textual form, not the
numeric value: `len > 1` admits "00") and `Lookup` finds it. -/
theorem c3_counterexample :
    (Parse bodyC3).Suffixes = [sfx1] ∧ Lookup (Parse bodyC3) sfx1 = true := by
  decide

/-- C3 (amended): a suffix whose every occurrence carries the literal
single-character count "0" is excluded by `Parse` and `Lookup` returns
false for it; counts written with more than one character (such as
"00") are kept even though numerically zero. -/
theorem c3_zero_count_excluded (es : List Entry) (hwf : ∀ e ∈ es, e.wf)
    (s : List Char) (hz : ∀ e ∈ es, e.suffix = s → e.count = ['0']) :
    Lookup (Parse (renderBody es)) s = false := by
  by_contra h
  rw [Bool.not_eq_false,
    Lookup_eq_true_iff _ (Parse_sorted (renderBody es)),
    mem_Parse_renderBody es hwf] at h
  obtain ⟨e, he, heq, hinc⟩ := h
  rw [hz e he heq] at hinc
  exact absurd hinc (by decide)

theorem c3_zero_count_excluded_witness :
    Lookup (Parse (renderBody esC3)) sfx2 = false :=
  c3_zero_count_excluded esC3 (by decide) sfx2 (by decide)

/-! ### Claim C4 -/

/-- C4 is refuted as stated: for `bodyC4` the derived suffix collection
`[sfx2, sfx3]` is strictly ascending, yet `SuffixesSorted` is false,
because the excluded zero-count middle line also participates in the
sortedness check.  So the flag is not equivalent to sortedness of the
derived collection. -/
theorem c4_counterexample :
    (Parse bodyC4).Suffixes = [sfx2, sfx3] ∧
    (Parse bodyC4).SuffixesSorted = false ∧
    cmpBytes sfx2 sfx3 = Ordering.lt := by
  decide

/-- C4 (amended): after `Parse`, a true `SuffixesSorted` flag implies
the derived collection is strictly ascending; a body all of whose
matched suffixes (zero-count padding entries included) are strictly
ascending yields a true flag; and `Lookup` answers membership correctly
under both flag values.  (The converse of the first part fails: the
flag can be false while the collection is sorted, see the
counterexample.) -/
theorem c4_sortedness_flag :
    (∀ body : List Char, (Parse body).SuffixesSorted = true →
      List.Chain' ltB (Parse body).Suffixes) ∧
    (∀ es : List Entry, (∀ e ∈ es, e.wf) →
      List.Pairwise (fun a b : Entry => ltB a.suffix b.suffix) es →
      (Parse (renderBody es)).SuffixesSorted = true) ∧
    (∀ (body sfx : List Char),
      Lookup (Parse body) sfx = true ↔ sfx ∈ (Parse body).Suffixes) := by
  refine ⟨Parse_sorted, ?_, ?_⟩
  · intro es hwf hpw
    have hflag : (Parse (renderBody es)).SuffixesSorted =
        ((splitLines (renderBody es)).foldl parseStep ([], true)).2 := rfl
    rw [hflag, splitLines_renderBody es hwf, List.foldl_append]
    simp only [List.foldl_cons, List.foldl_nil,
      parseStep_of_none matchLine_nil]
    exact foldl_parseStep_flag_of_ascending es ([], true) hwf rfl
      (by simp) hpw
  · intro body sfx
    exact Lookup_eq_true_iff (Parse body) (Parse_sorted body) sfx

theorem c4_sortedness_flag_witness :
    (Parse (renderBody esAsc)).SuffixesSorted = true ∧
    List.Chain' ltB (Parse (renderBody esAsc)).Suffixes ∧
    (Lookup (Parse bodyC4) sfx2 = true ↔ sfx2 ∈ (Parse bodyC4).Suffixes) := by
  have h := c4_sortedness_flag
  have h2 := h.2.1 esAsc (by decide) (by decide)
  exact ⟨h2, h.1 (renderBody esAsc) h2, h.2.2 bodyC4 sfx2⟩

/-! ### Claim C5: the URL is built from the hash prefix only -/

theorem hexEncode_length (bs : List Nat) :
    (hexEncode bs).length = 2 * bs.length := by
  induction bs with
  | nil => rfl
  | cons b bs ih =>
    unfold hexEncode at ih ⊢
    rw [List.flatMap_cons, List.length_append, ih]
    simp only [List.length_cons, List.length_nil, List.length_singleton]
    omega

theorem hexSum_length (sum : List Nat) :
    (hexSum sum).length = 2 * sum.length := by
  unfold hexSum
  rw [List.length_map, hexEncode_length]

theorem hexSum_all_hexUpper (sum : List Nat) (hb : ∀ b ∈ sum, b < 256) :
    ∀ c ∈ hexSum sum, isHexUpper c = true := by
  intro c hc
  unfold hexSum at hc
  obtain ⟨c', hc', rfl⟩ := List.mem_map.mp hc
  unfold hexEncode at hc'
  obtain ⟨b, hbm, hcb⟩ := List.mem_flatMap.mp hc'
  have h16 : ∀ m, m < 16 →
      isHexUpper (goToUpper (hexDigitLower m)) = true := by decide
  have hblt := hb b hbm
  rcases List.mem_cons.mp hcb with rfl | hcb
  · exact h16 _ (by omega)
  · rw [List.mem_singleton.mp hcb]
    exact h16 _ (by omega)

/-- C5: `Check` builds the outbound request URL from only the first 5
characters of the uppercase hex digest; the URL is invariant under any
change of the remaining digest, and the 35-character local suffix never
appears (as a contiguous substring) in the URL. -/
theorem c5_url_from_hash_prefix (sum1 sum2 : List Nat)
    (hlen : sum1.length = 20) (hbytes : ∀ b ∈ sum1, b < 256)
    (h5 : (hexSum sum1).take 5 = (hexSum sum2).take 5) :
    checkRequestURL sum1 = checkRequestURL sum2 ∧
    ¬ ∃ l r : List Char,
      l ++ checkLocalSuffix sum1 ++ r = checkRequestURL sum1 := by
  constructor
  · unfold checkRequestURL
    rw [h5]
  · rintro ⟨l, r, heq⟩
    have hsub : (checkLocalSuffix sum1).Sublist (checkRequestURL sum1) := by
      rw [← heq, List.append_assoc]
      exact (List.sublist_append_left _ r).trans
        (List.sublist_append_right l _)
    have hfil := hsub.filter isHexUpper
    have hsuf_all : ∀ c ∈ checkLocalSuffix sum1, isHexUpper c = true := by
      intro c hc
      exact hexSum_all_hexUpper sum1 hbytes c
        (List.drop_subset 5 (hexSum sum1) hc)
    rw [List.filter_eq_self.mpr hsuf_all] at hfil
    have hurl : (checkRequestURL sum1).filter isHexUpper =
        ((hexSum sum1).take 5).filter isHexUpper := by
      unfold checkRequestURL PwnedPasswordsURL
      rw [List.filter_append,
        show ("https://api.pwnedpasswords.com/range/".toList).filter
          isHexUpper = [] from by decide, List.nil_append]
    have hslen : (checkLocalSuffix sum1).length = 35 := by
      unfold checkLocalSuffix
      rw [List.length_drop, hexSum_length, hlen]
    have hle := hfil.length_le
    rw [hurl, hslen] at hle
    have h5le : (((hexSum sum1).take 5).filter isHexUpper).length ≤ 5 :=
      le_trans (List.length_filter_le _ _)
        (by rw [List.length_take]; omega)
    omega

theorem c5_url_from_hash_prefix_witness :
    checkRequestURL (List.replicate 20 0) =
      checkRequestURL (List.replicate 19 0 ++ [255]) ∧
    ¬ ∃ l r : List Char,
      l ++ checkLocalSuffix (List.replicate 20 0) ++ r =
        checkRequestURL (List.replicate 20 0) :=
  c5_url_from_hash_prefix (List.replicate 20 0)
    (List.replicate 19 0 ++ [255]) (by decide) (by decide) (by decide)

/-! ### Evaluation equations for `doRequest`, `checkNetwork`, `Check` -/

theorem doRequest_failure {c : ClientModel} {pfx : List Char} {e : GoError}
    (ht : c.transport = TransportResult.failure e) :
    doRequest c pfx = ((none, some e), [Effect.transportCall pfx]) := by
  unfold doRequest
  rw [ht]

theorem doRequest_non200 {c : ClientModel} {pfx : List Char}
    {res : HttpResponse} (ht : c.transport = TransportResult.success res)
    (hst : res.StatusCode ≠ 200) :
    doRequest c pfx =
      ((some ⟨res, none⟩, none), [Effect.transportCall pfx]) := by
  unfold doRequest
  rw [ht]
  simp only [if_neg hst]

theorem doRequest_200_nocache {c : ClientModel} {pfx : List Char}
    {res : HttpResponse} (ht : c.transport = TransportResult.success res)
    (hst : res.StatusCode = 200) (hnoc : c.Cache = none) :
    doRequest c pfx = ((some ⟨res, some (Parse res.Body)⟩, none),
      [Effect.transportCall pfx]) := by
  unfold doRequest
  rw [ht]
  simp only [if_pos hst, hnoc]

theorem doRequest_200_cache_nosuffix {c : ClientModel} {pfx : List Char}
    {res : HttpResponse} {cm : CacheModel}
    (ht : c.transport = TransportResult.success res)
    (hst : res.StatusCode = 200) (hc : c.Cache = some cm)
    (hsuf : (Parse res.Body).Suffixes = []) :
    doRequest c pfx = ((some ⟨res, some (Parse res.Body)⟩, none),
      [Effect.transportCall pfx]) := by
  unfold doRequest
  rw [ht]
  simp only [if_pos hst, hc, if_pos hsuf]

theorem doRequest_200_cache_add_ok {c : ClientModel} {pfx : List Char}
    {res : HttpResponse} {cm : CacheModel}
    (ht : c.transport = TransportResult.success res)
    (hst : res.StatusCode = 200) (hc : c.Cache = some cm)
    (hsuf : (Parse res.Body).Suffixes ≠ []) (hadd : cm.addResult = none) :
    doRequest c pfx = ((some ⟨res, some (Parse res.Body)⟩, none),
      [Effect.transportCall pfx,
        Effect.cacheAdd pfx (Parse res.Body).Suffixes]) := by
  unfold doRequest
  rw [ht]
  simp only [if_pos hst, hc, if_neg hsuf, hadd]

theorem doRequest_200_cache_add_err {c : ClientModel} {pfx : List Char}
    {res : HttpResponse} {cm : CacheModel} {e : GoError}
    (ht : c.transport = TransportResult.success res)
    (hst : res.StatusCode = 200) (hc : c.Cache = some cm)
    (hsuf : (Parse res.Body).Suffixes ≠ []) (hadd : cm.addResult = some e) :
    doRequest c pfx = ((some ⟨res, none⟩, some e),
      [Effect.transportCall pfx,
        Effect.cacheAdd pfx (Parse res.Body).Suffixes]) := by
  unfold doRequest
  rw [ht]
  simp only [if_pos hst, hc, if_neg hsuf, hadd]

theorem Check_no_cache {c : ClientModel} {pfx sfx : List Char}
    (h : c.Cache = none) : Check c pfx sfx = checkNetwork c pfx sfx := by
  unfold Check
  rw [h]

theorem Check_cache_err {c : ClientModel} {pfx sfx : List Char}
    {cm : CacheModel} {b : Bool} {e : GoError} (hc : c.Cache = some cm)
    (hr : cm.containsResult = (b, some e)) :
    Check c pfx sfx = ((b, some e), []) := by
  unfold Check
  simp only [hc]
  rw [hr]

theorem Check_cache_hit {c : ClientModel} {pfx sfx : List Char}
    {cm : CacheModel} (hc : c.Cache = some cm)
    (hr : cm.containsResult = (true, none)) :
    Check c pfx sfx = ((true, none), []) := by
  unfold Check
  simp only [hc]
  rw [hr]
  rfl

theorem Check_cache_miss {c : ClientModel} {pfx sfx : List Char}
    {cm : CacheModel} (hc : c.Cache = some cm)
    (hr : cm.containsResult = (false, none)) :
    Check c pfx sfx = checkNetwork c pfx sfx := by
  unfold Check
  simp only [hc]
  rw [hr]
  rfl

/-- A client reaches the network path exactly when there is no cache or
`Contains` answered `(false, nil)`. -/
def reachesNetwork (c : ClientModel) : Prop :=
  match c.Cache with
  | none => True
  | some cm => cm.containsResult = (false, none)

theorem Check_eq_network {c : ClientModel} {pfx sfx : List Char}
    (h : reachesNetwork c) : Check c pfx sfx = checkNetwork c pfx sfx := by
  unfold reachesNetwork at h
  cases hc : c.Cache with
  | none => exact Check_no_cache hc
  | some cm =>
    rw [hc] at h
    exact Check_cache_miss hc h

/-! ### Claim C6 -/

/-- C6: when the network computation succeeds but the status is not
200, `Check` returns `(false, ErrorUnexpectedResponse)` carrying the
raw response, and the transport is invoked exactly once (no retry). -/
theorem c6_unexpected_response (c : ClientModel) (pfx sfx : List Char)
    (res : HttpResponse) (ht : c.transport = TransportResult.success res)
    (hst : res.StatusCode ≠ 200) (hnet : reachesNetwork c) :
    (Check c pfx sfx).1 = (false, some (GoError.unexpected res)) ∧
    (Check c pfx sfx).2.count (Effect.transportCall pfx) = 1 := by
  rw [Check_eq_network hnet]
  unfold checkNetwork
  rw [doRequest_non200 ht hst]
  simp [hst, List.count_cons]

theorem c6_unexpected_response_witness :
    (Check ⟨none, TransportResult.success ⟨404, []⟩⟩
      ("ABCDE".toList) sfx1).1 =
      (false, some (GoError.unexpected ⟨404, []⟩)) ∧
    (Check ⟨none, TransportResult.success ⟨404, []⟩⟩
      ("ABCDE".toList) sfx1).2.count
      (Effect.transportCall ("ABCDE".toList)) = 1 :=
  c6_unexpected_response _ _ _ ⟨404, []⟩ rfl (by decide) trivial

/-! ### Claim C7 -/

/-- C7: a non-nil error from `Cache.Contains` makes `Check` return that
error immediately, with no network activity at all (the effect list is
empty, so the transport collaborator is never invoked): fail-closed. -/
theorem c7_cache_error_fail_closed (c : ClientModel) (pfx sfx : List Char)
    (cm : CacheModel) (b : Bool) (e : GoError) (hc : c.Cache = some cm)
    (hr : cm.containsResult = (b, some e)) :
    (Check c pfx sfx).1.2 = some e ∧ (Check c pfx sfx).2 = [] := by
  rw [Check_cache_err hc hr]
  exact ⟨rfl, rfl⟩

theorem c7_cache_error_fail_closed_witness :
    (Check ⟨some ⟨(false, some (GoError.other 7)), none⟩,
      TransportResult.failure (GoError.other 0)⟩
      ("ABCDE".toList) sfx1).1.2 = some (GoError.other 7) ∧
    (Check ⟨some ⟨(false, some (GoError.other 7)), none⟩,
      TransportResult.failure (GoError.other 0)⟩
      ("ABCDE".toList) sfx1).2 = [] :=
  c7_cache_error_fail_closed _ _ _ ⟨(false, some (GoError.other 7)), none⟩
    false (GoError.other 7) rfl rfl

/-! ### Claim C8 -/

/-- C8: a cache hit (`Contains` returning `(true, nil)`) makes `Check`
return `(true, nil)` with no network request (empty effect list, so the
transport collaborator is never invoked). -/
theorem c8_cache_hit_no_network (c : ClientModel) (pfx sfx : List Char)
    (cm : CacheModel) (hc : c.Cache = some cm)
    (hr : cm.containsResult = (true, none)) :
    (Check c pfx sfx).1 = (true, none) ∧ (Check c pfx sfx).2 = [] := by
  rw [Check_cache_hit hc hr]
  exact ⟨rfl, rfl⟩

theorem c8_cache_hit_no_network_witness :
    (Check ⟨some ⟨(true, none), none⟩,
      TransportResult.failure (GoError.other 0)⟩
      ("ABCDE".toList) sfx1).1 = (true, none) ∧
    (Check ⟨some ⟨(true, none), none⟩,
      TransportResult.failure (GoError.other 0)⟩
      ("ABCDE".toList) sfx1).2 = [] :=
  c8_cache_hit_no_network _ _ _ ⟨(true, none), none⟩ rfl rfl

/-! ### Claim C9 -/

/-- C9: on a 200 response, if a cache is configured and at least one
suffix was parsed, `Cache.Add` is invoked with all parsed suffixes and
a non-nil `Add` error becomes the failure of the request; if no suffix
was parsed or no cache is configured, `Add` is never invoked. -/
theorem c9_cache_add (c : ClientModel) (pfx : List Char)
    (res : HttpResponse) (ht : c.transport = TransportResult.success res)
    (hst : res.StatusCode = 200) :
    (∀ cm, c.Cache = some cm →
      ((Parse res.Body).Suffixes ≠ [] →
        Effect.cacheAdd pfx (Parse res.Body).Suffixes ∈ (doRequest c pfx).2 ∧
        ∀ e, cm.addResult = some e → (doRequest c pfx).1.2 = some e) ∧
      ((Parse res.Body).Suffixes = [] →
        ∀ p s, Effect.cacheAdd p s ∉ (doRequest c pfx).2)) ∧
    (c.Cache = none → ∀ p s, Effect.cacheAdd p s ∉ (doRequest c pfx).2) := by
  constructor
  · intro cm hc
    constructor
    · intro hsuf
      cases hadd : cm.addResult with
      | none =>
        rw [doRequest_200_cache_add_ok ht hst hc hsuf hadd]
        refine ⟨by simp, ?_⟩
        intro e he
        exact absurd he (by simp)
      | some e0 =>
        rw [doRequest_200_cache_add_err ht hst hc hsuf hadd]
        refine ⟨by simp, ?_⟩
        intro e he
        rw [Option.some_inj] at he
        subst he
        rfl
    · intro hsuf p s
      rw [doRequest_200_cache_nosuffix ht hst hc hsuf]
      simp
  · intro hnoc p s
    rw [doRequest_200_nocache ht hst hnoc]
    simp

theorem c9_cache_add_witness :
    Effect.cacheAdd ("ABCDE".toList) (Parse bodyC3).Suffixes ∈
      (doRequest ⟨some ⟨(false, none), some (GoError.other 9)⟩,
        TransportResult.success ⟨200, bodyC3⟩⟩ ("ABCDE".toList)).2 ∧
    (doRequest ⟨some ⟨(false, none), some (GoError.other 9)⟩,
        TransportResult.success ⟨200, bodyC3⟩⟩ ("ABCDE".toList)).1.2 =
      some (GoError.other 9) := by
  have h := ((c9_cache_add ⟨some ⟨(false, none), some (GoError.other 9)⟩,
    TransportResult.success ⟨200, bodyC3⟩⟩ ("ABCDE".toList) ⟨200, bodyC3⟩
    rfl rfl).1 ⟨(false, none), some (GoError.other 9)⟩ rfl).1 (by decide)
  exact ⟨h.1, h.2 (GoError.other 9) rfl⟩

/-! ### Claim C10 -/

/-- C10: when `Cache.Contains` returns `(b, e)` with `e` non-nil,
`Check` returns exactly the pair `(b, e)` — the boolean mirrors the
cache's boolean and is not forced to false. -/
theorem c10_cache_error_mirrors_bool (c : ClientModel) (pfx sfx : List Char)
    (cm : CacheModel) (b : Bool) (e : GoError) (hc : c.Cache = some cm)
    (hr : cm.containsResult = (b, some e)) :
    (Check c pfx sfx).1 = (b, some e) := by
  rw [Check_cache_err hc hr]

theorem c10_cache_error_mirrors_bool_witness :
    (Check ⟨some ⟨(true, some (GoError.other 3)), none⟩,
      TransportResult.failure (GoError.other 0)⟩
      ("ABCDE".toList) sfx1).1 = (true, some (GoError.other 3)) :=
  c10_cache_error_mirrors_bool _ _ _
    ⟨(true, some (GoError.other 3)), none⟩ true (GoError.other 3) rfl rfl

end Hibp
